import Mathlib

/-!
Shallow embedding of the crdt package (crdt.go): a generic merge/join engine
over a universe of mergeable Go values.

The universe covers the shapes the engine dispatches on (crdt.go, merge):
a custom Merger implementation (the decreasingInt type of crdt_test.go),
structs merged fieldwise, maps merged keywise, and the totally ordered
scalars (bool, the integer kinds, strings).  Go integers of every width are
modelled as Int (the engine only compares them, never does arithmetic, so
the width is irrelevant to the ordering facts proved here); Go strings are
modelled as their byte sequences, compared lexicographically exactly as Go
compares strings with the operator used in the source.

Go maps are modelled as association lists sorted strictly by key, together
with a nil/non-nil marker (Option): a nil map is distinct from an empty one,
exactly as in Go.  Merging iterates over the keys of the source map; since
distinct keys never interact during a merge, iterating in sorted order
yields the same final map and changed flag as the randomized iteration
order of the Go runtime.  Panics of the top level entry points are modelled
with Except, carrying the panic message.
-/

namespace Crdt

/-- Types of the mergeable universe: bool, int, string, the decreasingInt
Merger type of crdt_test.go, structs with a list of field types, and maps
from int keys to values of a given type. -/
inductive MTy : Type where
  | tbool : MTy
  | tint : MTy
  | tstr : MTy
  | tdec : MTy
  | tstruct : List MTy → MTy
  | tmap : MTy → MTy

/-- Values of the mergeable universe.  A map value carries the type of its
entries (needed to build the scratch zero value for shared keys, mirroring
the reflect.New call on the entry type in crdt.go) and an optional entry
list, where none models a nil Go map and some models a non-nil map. -/
inductive MVal : Type where
  | vbool : Bool → MVal
  | vint : Int → MVal
  | vstr : List Nat → MVal
  | vdec : Int → MVal
  | vstruct : List MVal → MVal
  | vmap : MTy → Option (List (Int × MVal)) → MVal

mutual

/-- Boolean equality test on types (reflect.Type comparison). -/
def MTy.beq : MTy → MTy → Bool
  | .tbool, .tbool => true
  | .tint, .tint => true
  | .tstr, .tstr => true
  | .tdec, .tdec => true
  | .tstruct a, .tstruct b => MTy.beqs a b
  | .tmap a, .tmap b => MTy.beq a b
  | _, _ => false

/-- Boolean equality test on lists of types. -/
def MTy.beqs : List MTy → List MTy → Bool
  | [], [] => true
  | a :: as, b :: bs => MTy.beq a b && MTy.beqs as bs
  | _, _ => false

end

mutual

/-- The reflect.Type of a value. -/
def tyOf : MVal → MTy
  | .vbool _ => .tbool
  | .vint _ => .tint
  | .vstr _ => .tstr
  | .vdec _ => .tdec
  | .vstruct fs => .tstruct (tysOf fs)
  | .vmap vt _ => .tmap vt

/-- Types of a list of struct fields. -/
def tysOf : List MVal → List MTy
  | [] => []
  | v :: vs => tyOf v :: tysOf vs

end

mutual

/-- The Go zero value of a type, as produced by reflect.New(t).Elem().
The zero value of a map type is the nil map. -/
def zeroOf : MTy → MVal
  | .tbool => .vbool false
  | .tint => .vint 0
  | .tstr => .vstr []
  | .tdec => .vdec 0
  | .tstruct fts => .vstruct (zerosOf fts)
  | .tmap vt => .vmap vt none

/-- Zero values of a list of field types. -/
def zerosOf : List MTy → List MVal
  | [] => []
  | t :: ts => zeroOf t :: zerosOf ts

end

/-- Lexicographic bytewise comparison of Go strings: gtStr a b is the Go
expression a > b on strings (crdt.go, greater, string case). -/
def gtStr : List Nat → List Nat → Bool
  | [], _ => false
  | _ :: _, [] => true
  | a :: as, b :: bs => if b < a then true else if a < b then false else gtStr as bs

/-- Transcription of greater (crdt.go): true if a > b under the natural
ordering of the dynamic type.  Booleans order false before true, integers
numerically, strings lexicographically.  The decreasingInt type never
reaches greater because the Merger capability is dispatched first. -/
def greater : MVal → MVal → Bool
  | .vbool a, .vbool b => a && !b
  | .vint a, .vint b => decide (b < a)
  | .vstr a, .vstr b => gtStr a b
  | _, _ => false

/-- Lookup of a key in a map (a.MapIndex(key); none when the key is absent,
matching an invalid reflect.Value). -/
def lookupKey : List (Int × MVal) → Int → Option MVal
  | [], _ => none
  | (k, v) :: l, key => if key = k then some v else lookupKey l key

/-- Store of a key in a map (a.SetMapIndex(key, nv)): replaces the entry if
the key is present, otherwise inserts it, keeping the canonical sorted
order of the association list. -/
def setKey : List (Int × MVal) → Int → MVal → List (Int × MVal)
  | [], key, nv => [(key, nv)]
  | (k, v) :: l, key, nv =>
    if key = k then (key, nv) :: l
    else if key < k then (key, nv) :: (k, v) :: l
    else (k, v) :: setKey l key nv

/-- Key strictly below every key of the list. -/
def keyLt (k : Int) (l : List (Int × MVal)) : Bool :=
  l.all fun p => decide (k < p.1)

/-- Entry list strictly sorted by key: the canonical representation of a Go
map, whose keys are unique and unordered. -/
def sortedKeys : List (Int × MVal) → Bool
  | [] => true
  | (k, _) :: l => keyLt k l && sortedKeys l

mutual

/-- Well-formed value: every map entry list is sorted by key and every
entry value has the declared entry type.  Any value reachable from a
well-typed Go program satisfies this. -/
def WT : MVal → Bool
  | .vbool _ => true
  | .vint _ => true
  | .vstr _ => true
  | .vdec _ => true
  | .vstruct fs => WTs fs
  | .vmap _ none => true
  | .vmap vt (some l) => sortedKeys l && WTm vt l

/-- Well-formed struct field list. -/
def WTs : List MVal → Bool
  | [] => true
  | v :: vs => WT v && WTs vs

/-- Well-formed map entries of a given value type. -/
def WTm : MTy → List (Int × MVal) → Bool
  | _, [] => true
  | vt, (_, v) :: l => MTy.beq (tyOf v) vt && WT v && WTm vt l

end

mutual

/-- Observational equality of Go values as seen by comparisons such as
reflect.DeepEqual on map contents, except that a nil map and an empty
non-nil map are identified (at any depth).  Used to state the changed-flag
property: the engine instantiates nil target maps without reporting a
change, so equality up to nil/empty identification is the notion under
which the changed flag is exact. -/
def eqv : MVal → MVal → Bool
  | .vbool a, .vbool b => a == b
  | .vint a, .vint b => a == b
  | .vstr a, .vstr b => a == b
  | .vdec a, .vdec b => a == b
  | .vstruct fa, .vstruct fb => eqvs fa fb
  | .vmap vt ma, .vmap vt2 mb => MTy.beq vt vt2 && eqvEntries (ma.getD []) (mb.getD [])
  | _, _ => false
termination_by a _ => sizeOf a
decreasing_by
  · simp
  · cases ma <;> simp <;> omega

/-- Pointwise observational equality of struct field lists. -/
def eqvs : List MVal → List MVal → Bool
  | [], [] => true
  | a :: as, b :: bs => eqv a b && eqvs as bs
  | _, _ => false
termination_by as _ => sizeOf as
decreasing_by
  all_goals simp <;> omega

/-- Pointwise observational equality of sorted map entry lists. -/
def eqvEntries : List (Int × MVal) → List (Int × MVal) → Bool
  | [], [] => true
  | (k1, v1) :: l1, (k2, v2) :: l2 => k1 == k2 && eqv v1 v2 && eqvEntries l1 l2
  | _, _ => false
termination_by l1 _ => sizeOf l1
decreasing_by
  all_goals simp <;> omega

end

/-- Observational equality on optional lookup results. -/
def eqvO : Option MVal → Option MVal → Bool
  | some a, some b => eqv a b
  | none, none => true
  | _, _ => false

/-- Transcription of the Merge method of decreasingInt (crdt_test.go): an
in-place custom Merger keeping the minimum, overriding the default
greater-wins behavior of int-kinded values. -/
def decreasingIntMerge (x y : Int) : MVal × Bool :=
  if y < x then (.vdec y, true) else (.vdec x, false)

mutual

/-- Transcription of merge (crdt.go): sets a to the least upper bound of
(a, b) and reports whether a was modified.  Dispatch order mirrors the
source: Merger capability first (the decreasingInt type), then structs
fieldwise, then maps keywise, then ordered scalars by greater.  The type
index drives dispatch, exactly as the reflect.Kind of a does in Go; on
well-typed inputs the index is the common type of a and b. -/
def merge : MTy → MVal → MVal → MVal × Bool
  | .tdec, .vdec x, .vdec y => decreasingIntMerge x y
  | .tdec, a, _ => (a, false)
  | .tbool, a, b => if greater b a then (b, true) else (a, false)
  | .tint, a, b => if greater b a then (b, true) else (a, false)
  | .tstr, a, b => if greater b a then (b, true) else (a, false)
  | .tstruct fts, .vstruct fa, .vstruct fb =>
    let r := mergeFields fts fa fb
    (.vstruct r.1, r.2)
  | .tstruct _, a, _ => (a, false)
  | .tmap vt, .vmap _ ma, .vmap _ mb =>
    match mb with
    | none => (.vmap vt ma, false)
    | some lb =>
      let r := mergeEntries vt (ma.getD []) lb
      (.vmap vt (some r.1), r.2)
  | .tmap _, a, _ => (a, false)
termination_by t _ _ => (sizeOf t, 0)

/-- Fieldwise merge of struct fields (the struct loop of merge in crdt.go):
the changed flag of the struct is the disjunction of the per-field flags,
and every field is processed. -/
def mergeFields : List MTy → List MVal → List MVal → List MVal × Bool
  | t :: ts, a :: as, b :: bs =>
    let r1 := merge t a b
    let r2 := mergeFields ts as bs
    (r1.1 :: r2.1, r1.2 || r2.2)
  | _, as, _ => (as, false)
termination_by ts _ _ => (sizeOf ts, 0)

/-- Keywise merge of map entries (the map loop of merge in crdt.go), the
target entry list as accumulator.  For a key of b absent from a, the value
of b is inserted and that counts as a change.  For a shared key, a scratch
zero value of the entry type is merged with the existing value and then
with the incoming value; only if the second merge reports a change is the
entry replaced and the change recorded. -/
def mergeEntries : MTy → List (Int × MVal) → List (Int × MVal) → List (Int × MVal) × Bool
  | _, la, [] => (la, false)
  | vt, la, (k, bv) :: lb =>
    match lookupKey la k with
    | some av =>
      let n1 := merge vt (zeroOf vt) av
      let n2 := merge vt n1.1 bv
      if n2.2 then
        let r := mergeEntries vt (setKey la k n2.1) lb
        (r.1, true)
      else
        let r := mergeEntries vt la lb
        (r.1, r.2)
    | none =>
      let r := mergeEntries vt (setKey la k bv) lb
      (r.1, true)
termination_by vt _ lb => (sizeOf vt, sizeOf lb + 1)

end

/-- An argument to the exported Merge: Go passes interface values, and the
first one must be a pointer (reflect.Ptr kind) for the target to be
addressable; ptr models a pointer to a value, val a non-pointer value. -/
inductive GoArg : Type where
  | ptr : MVal → GoArg
  | val : MVal → GoArg

/-- Transcription of the exported Merge (crdt.go): panics if a is not a
pointer, then panics if the pointee type differs from the type of b, then
merges in place.  Panics are modelled by Except.error with the panic
message. -/
def Merge : GoArg → MVal → Except String (MVal × Bool)
  | .val _, _ => .error "a must be a pointer"
  | .ptr a, b =>
    if MTy.beq (tyOf a) (tyOf b) then .ok (merge (tyOf a) a b)
    else .error "a and &b must be the same type"

/-- Transcription of join (crdt.go): a fresh zero value of the type of a is
merged with a, then with b, and returned.  Neither input is written to:
merge only writes through its first argument. -/
def join (a b : MVal) : MVal :=
  (merge (tyOf a) (merge (tyOf a) (zeroOf (tyOf a)) a).1 b).1

/-- Transcription of the exported Join (crdt.go): panics if the types of a
and b differ, otherwise returns the join. -/
def Join (a b : MVal) : Except String MVal :=
  if MTy.beq (tyOf a) (tyOf b) then .ok (join a b)
  else .error "a and b must be the same type"

/-! ## Basic facts about type equality -/

theorem beq_refl_aux : ∀ n : Nat,
    (∀ t : MTy, sizeOf t ≤ n → MTy.beq t t = true) ∧
    (∀ ts : List MTy, sizeOf ts ≤ n → MTy.beqs ts ts = true) := by
  intro n
  induction n with
  | zero =>
    constructor
    · intro t ht; exfalso; cases t <;> simp at ht
    · intro ts ht; exfalso; cases ts <;> simp at ht <;> omega
  | succ n ih =>
    constructor
    · intro t ht
      cases t with
      | tbool => rw [MTy.beq]
      | tint => rw [MTy.beq]
      | tstr => rw [MTy.beq]
      | tdec => rw [MTy.beq]
      | tstruct fts =>
        rw [MTy.beq]
        exact ih.2 fts (by simp at ht; omega)
      | tmap vt =>
        rw [MTy.beq]
        exact ih.1 vt (by simp at ht; omega)
    · intro ts ht
      cases ts with
      | nil => rw [MTy.beqs]
      | cons t ts =>
        rw [MTy.beqs]
        simp at ht
        rw [ih.1 t (by omega), ih.2 ts (by omega)]
        rfl

/-- Type equality is reflexive. -/
theorem MTy.beq_refl (t : MTy) : MTy.beq t t = true :=
  (beq_refl_aux (sizeOf t)).1 t (Nat.le_refl _)

theorem beq_sound_aux : ∀ n : Nat,
    (∀ t u : MTy, sizeOf t ≤ n → MTy.beq t u = true → t = u) ∧
    (∀ ts us : List MTy, sizeOf ts ≤ n → MTy.beqs ts us = true → ts = us) := by
  intro n
  induction n with
  | zero =>
    constructor
    · intro t _ ht; exfalso; cases t <;> simp at ht
    · intro ts _ ht; exfalso; cases ts <;> simp at ht <;> omega
  | succ n ih =>
    constructor
    · intro t u ht h
      cases t <;> cases u <;> simp only [MTy.beq] at h <;>
        first
        | rfl
        | exact Bool.noConfusion h
        | skip
      case tstruct.tstruct fts gts =>
        rw [ih.2 fts gts (by simp at ht; omega) h]
      case tmap.tmap vt wt =>
        rw [ih.1 vt wt (by simp at ht; omega) h]
    · intro ts us ht h
      cases ts <;> cases us <;> simp only [MTy.beqs] at h <;>
        first
        | rfl
        | exact Bool.noConfusion h
        | skip
      case cons.cons t ts u us =>
        simp at ht
        simp only [Bool.and_eq_true] at h
        rw [ih.1 t u (by omega) h.1, ih.2 ts us (by omega) h.2]

/-- Type equality is sound. -/
theorem MTy.beq_sound {t u : MTy} (h : MTy.beq t u = true) : t = u :=
  (beq_sound_aux (sizeOf t)).1 t u (Nat.le_refl _) h

/-- Type equality decides propositional equality. -/
theorem MTy.beq_iff {t u : MTy} : MTy.beq t u = true ↔ t = u :=
  ⟨MTy.beq_sound, fun h => h ▸ MTy.beq_refl t⟩

/-! ## Unfolding equations for the merge engine -/

@[simp] theorem merge_tdec (x y : Int) :
    merge .tdec (.vdec x) (.vdec y) = decreasingIntMerge x y := by
  rw [merge]

@[simp] theorem merge_tbool (a b : MVal) :
    merge .tbool a b = if greater b a then (b, true) else (a, false) := by
  rw [merge]

@[simp] theorem merge_tint (a b : MVal) :
    merge .tint a b = if greater b a then (b, true) else (a, false) := by
  rw [merge]

@[simp] theorem merge_tstr (a b : MVal) :
    merge .tstr a b = if greater b a then (b, true) else (a, false) := by
  rw [merge]

@[simp] theorem merge_tstruct (fts : List MTy) (fa fb : List MVal) :
    merge (.tstruct fts) (.vstruct fa) (.vstruct fb) =
      (.vstruct (mergeFields fts fa fb).1, (mergeFields fts fa fb).2) := by
  rw [merge]

@[simp] theorem merge_tmap_nil (vt vt2 vt3 : MTy) (ma : Option (List (Int × MVal))) :
    merge (.tmap vt) (.vmap vt2 ma) (.vmap vt3 none) = (.vmap vt ma, false) := by
  rw [merge]

@[simp] theorem merge_tmap_some (vt vt2 vt3 : MTy) (ma : Option (List (Int × MVal)))
    (lb : List (Int × MVal)) :
    merge (.tmap vt) (.vmap vt2 ma) (.vmap vt3 (some lb)) =
      (.vmap vt (some (mergeEntries vt (ma.getD []) lb).1),
        (mergeEntries vt (ma.getD []) lb).2) := by
  rw [merge]

@[simp] theorem mergeFields_nil (bs : List MVal) :
    mergeFields [] [] bs = ([], false) := by
  rw [mergeFields]
  intro t ts a as1 b bs1 h1 h2 h3
  exact List.noConfusion h1

@[simp] theorem mergeFields_cons (t : MTy) (ts : List MTy) (a b : MVal) (as bs : List MVal) :
    mergeFields (t :: ts) (a :: as) (b :: bs) =
      ((merge t a b).1 :: (mergeFields ts as bs).1, (merge t a b).2 || (mergeFields ts as bs).2) := by
  rw [mergeFields]

@[simp] theorem mergeEntries_nil (vt : MTy) (la : List (Int × MVal)) :
    mergeEntries vt la [] = (la, false) := by
  rw [mergeEntries]

theorem mergeEntries_cons_absent (vt : MTy) (la lb : List (Int × MVal)) (k : Int) (bv : MVal)
    (h : lookupKey la k = none) :
    mergeEntries vt la ((k, bv) :: lb) = ((mergeEntries vt (setKey la k bv) lb).1, true) := by
  rw [mergeEntries, h]

theorem mergeEntries_cons_found (vt : MTy) (la lb : List (Int × MVal)) (k : Int) (av bv : MVal)
    (h : lookupKey la k = some av) :
    mergeEntries vt la ((k, bv) :: lb) =
      if (merge vt (merge vt (zeroOf vt) av).1 bv).2 then
        ((mergeEntries vt (setKey la k (merge vt (merge vt (zeroOf vt) av).1 bv).1) lb).1, true)
      else
        mergeEntries vt la lb := by
  rw [mergeEntries, h]

/-! ## Shape inversion from types -/

theorem tyOf_tbool {a : MVal} (h : tyOf a = .tbool) : ∃ x, a = .vbool x := by
  cases a <;> simp [tyOf] at h ⊢

theorem tyOf_tint {a : MVal} (h : tyOf a = .tint) : ∃ x, a = .vint x := by
  cases a <;> simp [tyOf] at h ⊢

theorem tyOf_tstr {a : MVal} (h : tyOf a = .tstr) : ∃ x, a = .vstr x := by
  cases a <;> simp [tyOf] at h ⊢

theorem tyOf_tdec {a : MVal} (h : tyOf a = .tdec) : ∃ x, a = .vdec x := by
  cases a <;> simp [tyOf] at h ⊢

theorem tyOf_tstruct {a : MVal} {fts : List MTy} (h : tyOf a = .tstruct fts) :
    ∃ fs, a = .vstruct fs ∧ tysOf fs = fts := by
  cases a <;> simp [tyOf] at h ⊢
  exact h

theorem tyOf_tmap {a : MVal} {vt : MTy} (h : tyOf a = .tmap vt) :
    ∃ m, a = .vmap vt m := by
  cases a <;> simp [tyOf] at h
  case vmap vtA m => exact ⟨m, by rw [h]⟩

theorem tysOf_nil {fs : List MVal} (h : tysOf fs = []) : fs = [] := by
  cases fs <;> simp [tysOf] at h ⊢

theorem tysOf_cons {fs : List MVal} {t : MTy} {ts : List MTy} (h : tysOf fs = t :: ts) :
    ∃ a as, fs = a :: as ∧ tyOf a = t ∧ tysOf as = ts := by
  cases fs with
  | nil => simp [tysOf] at h
  | cons a as =>
    simp [tysOf] at h
    exact ⟨a, as, rfl, h.1, h.2⟩

/-! ## The zero value is well formed and has the right type -/

theorem zeroOf_aux : ∀ n : Nat,
    (∀ t : MTy, sizeOf t ≤ n → tyOf (zeroOf t) = t ∧ WT (zeroOf t) = true) ∧
    (∀ ts : List MTy, sizeOf ts ≤ n → tysOf (zerosOf ts) = ts ∧ WTs (zerosOf ts) = true) := by
  intro n
  induction n with
  | zero =>
    constructor
    · intro t ht; exfalso; cases t <;> simp at ht
    · intro ts ht; exfalso; cases ts <;> simp at ht <;> omega
  | succ n ih =>
    constructor
    · intro t ht
      cases t with
      | tbool => exact ⟨rfl, rfl⟩
      | tint => exact ⟨rfl, rfl⟩
      | tstr => exact ⟨rfl, rfl⟩
      | tdec => exact ⟨rfl, rfl⟩
      | tstruct fts =>
        have h := ih.2 fts (by simp at ht; omega)
        simp [zeroOf, tyOf, WT, h.1, h.2]
      | tmap vt =>
        simp [zeroOf, tyOf, WT]
    · intro ts ht
      cases ts with
      | nil => exact ⟨rfl, rfl⟩
      | cons t ts =>
        simp at ht
        have h1 := ih.1 t (by omega)
        have h2 := ih.2 ts (by omega)
        simp [zerosOf, tysOf, WTs, h1.1, h1.2, h2.1, h2.2]

/-- The zero value of a type has that type. -/
theorem tyOf_zeroOf (t : MTy) : tyOf (zeroOf t) = t :=
  ((zeroOf_aux (sizeOf t)).1 t (Nat.le_refl _)).1

/-- The zero value of a type is well formed. -/
theorem WT_zeroOf (t : MTy) : WT (zeroOf t) = true :=
  ((zeroOf_aux (sizeOf t)).1 t (Nat.le_refl _)).2

/-! ## Reflexivity of observational equality -/

theorem eqv_refl_aux : ∀ n : Nat,
    (∀ v : MVal, sizeOf v ≤ n → eqv v v = true) ∧
    (∀ fs : List MVal, sizeOf fs ≤ n → eqvs fs fs = true) ∧
    (∀ l : List (Int × MVal), sizeOf l ≤ n → eqvEntries l l = true) := by
  intro n
  induction n with
  | zero =>
    refine ⟨?_, ?_, ?_⟩
    · intro v hv; exfalso; cases v <;> simp at hv
    · intro fs h; exfalso; cases fs <;> simp at h <;> omega
    · intro l h; exfalso; cases l <;> simp at h <;> omega
  | succ n ih =>
    refine ⟨?_, ?_, ?_⟩
    · intro v hv
      cases v with
      | vbool x => simp [eqv]
      | vint x => simp [eqv]
      | vstr x => simp [eqv]
      | vdec x => simp [eqv]
      | vstruct fs =>
        rw [eqv]
        exact ih.2.1 fs (by simp at hv; omega)
      | vmap vt m =>
        rw [eqv]
        have hm : sizeOf (m.getD []) ≤ n := by
          cases m <;> simp at hv ⊢ <;> omega
        rw [MTy.beq_refl, ih.2.2 (m.getD []) hm]
        rfl
    · intro fs h
      cases fs with
      | nil => rw [eqvs]
      | cons v vs =>
        rw [eqvs]
        simp at h
        rw [ih.1 v (by omega), ih.2.1 vs (by omega)]
        rfl
    · intro l h
      cases l with
      | nil => rw [eqvEntries]
      | cons p l =>
        obtain ⟨k, v⟩ := p
        rw [eqvEntries]
        simp at h
        rw [ih.1 v (by omega), ih.2.2 l (by omega)]
        simp

/-- Observational equality is reflexive. -/
theorem eqv_refl (v : MVal) : eqv v v = true :=
  (eqv_refl_aux (sizeOf v)).1 v (Nat.le_refl _)

/-- Observational equality of field lists is reflexive. -/
theorem eqvs_refl (fs : List MVal) : eqvs fs fs = true :=
  (eqv_refl_aux (sizeOf fs)).2.1 fs (Nat.le_refl _)

/-- Observational equality of entry lists is reflexive. -/
theorem eqvEntries_refl (l : List (Int × MVal)) : eqvEntries l l = true :=
  (eqv_refl_aux (sizeOf l)).2.2 l (Nat.le_refl _)


/-! ## Association list facts -/

theorem lookupKey_setKey_self (l : List (Int × MVal)) (k : Int) (v : MVal) :
    lookupKey (setKey l k v) k = some v := by
  induction l with
  | nil => simp [setKey, lookupKey]
  | cons p l ih =>
    obtain ⟨k1, v1⟩ := p
    by_cases h1 : k = k1
    · simp [setKey, h1, lookupKey]
    · by_cases h2 : k < k1
      · simp [setKey, h1, h2, lookupKey]
      · simp [setKey, h1, h2, lookupKey, ih]

theorem lookupKey_setKey_ne (l : List (Int × MVal)) (k1 k2 : Int) (v : MVal)
    (h : k2 ≠ k1) : lookupKey (setKey l k1 v) k2 = lookupKey l k2 := by
  induction l with
  | nil => simp [setKey, lookupKey, h]
  | cons p l ih =>
    obtain ⟨ka, va⟩ := p
    by_cases ha : k1 = ka
    · subst ha
      simp [setKey, lookupKey, h]
    · by_cases hb : k1 < ka
      · simp [setKey, ha, hb, lookupKey, h]
      · simp [setKey, ha, hb, lookupKey, ih]

theorem keyLt_iff {j : Int} {l : List (Int × MVal)} :
    keyLt j l = true ↔ ∀ p ∈ l, j < p.1 := by
  simp [keyLt]

theorem keyLt_trans {j k : Int} (h : j < k) {l : List (Int × MVal)}
    (hl : keyLt k l = true) : keyLt j l = true := by
  rw [keyLt_iff] at hl ⊢
  intro p hp
  exact lt_trans h (hl p hp)

theorem mem_setKey {l : List (Int × MVal)} {k : Int} {v : MVal} {p : Int × MVal}
    (h : p ∈ setKey l k v) : p = (k, v) ∨ p ∈ l := by
  induction l with
  | nil => simpa [setKey] using h
  | cons q l ih =>
    obtain ⟨ka, va⟩ := q
    by_cases ha : k = ka
    · simp only [setKey, if_pos ha] at h
      rcases List.mem_cons.mp h with h1 | h1
      · exact Or.inl h1
      · exact Or.inr (List.mem_cons_of_mem _ h1)
    · by_cases hb : k < ka
      · simp only [setKey, if_neg ha, if_pos hb] at h
        rcases List.mem_cons.mp h with h1 | h1
        · exact Or.inl h1
        · exact Or.inr h1
      · simp only [setKey, if_neg ha, if_neg hb] at h
        rcases List.mem_cons.mp h with h1 | h1
        · exact Or.inr (h1 ▸ List.mem_cons_self _ _)
        · rcases ih h1 with h2 | h2
          · exact Or.inl h2
          · exact Or.inr (List.mem_cons_of_mem _ h2)

theorem keyLt_setKey {j k : Int} {l : List (Int × MVal)} {v : MVal}
    (hl : keyLt j l = true) (h : j < k) : keyLt j (setKey l k v) = true := by
  rw [keyLt_iff] at hl ⊢
  intro p hp
  rcases mem_setKey hp with h1 | h1
  · rw [h1]
    exact h
  · exact hl p h1

theorem sortedKeys_setKey {l : List (Int × MVal)} {k : Int} {v : MVal}
    (hs : sortedKeys l = true) : sortedKeys (setKey l k v) = true := by
  induction l with
  | nil => simp [setKey, sortedKeys, keyLt]
  | cons p l ih =>
    obtain ⟨ka, va⟩ := p
    simp only [sortedKeys, Bool.and_eq_true] at hs
    by_cases ha : k = ka
    · simp only [setKey, ha, if_pos rfl, sortedKeys, Bool.and_eq_true]
      exact ⟨hs.1, hs.2⟩
    · by_cases hb : k < ka
      · simp only [setKey, if_neg ha, if_pos hb, sortedKeys, Bool.and_eq_true]
        refine ⟨?_, hs.1, hs.2⟩
        simp only [keyLt, List.all_cons, Bool.and_eq_true, decide_eq_true_eq]
        exact ⟨hb, by simpa [keyLt] using keyLt_trans hb hs.1⟩
      · have hc : ka < k := by omega
        simp only [setKey, if_neg ha, if_neg hb, sortedKeys, Bool.and_eq_true]
        exact ⟨keyLt_setKey hs.1 hc, ih hs.2⟩

theorem WTm_lookupKey {vt : MTy} {l : List (Int × MVal)} {k : Int} {v : MVal}
    (hw : WTm vt l = true) (h : lookupKey l k = some v) :
    WT v = true ∧ tyOf v = vt := by
  induction l with
  | nil => simp [lookupKey] at h
  | cons p l ih =>
    obtain ⟨ka, va⟩ := p
    simp only [WTm, Bool.and_eq_true] at hw
    by_cases hk : k = ka
    · simp only [lookupKey, if_pos hk] at h
      cases h
      exact ⟨hw.1.2, MTy.beq_sound hw.1.1⟩
    · simp only [lookupKey, if_neg hk] at h
      exact ih hw.2 h

theorem WTm_setKey {vt : MTy} {l : List (Int × MVal)} {k : Int} {v : MVal}
    (hw : WTm vt l = true) (h1 : WT v = true) (h2 : tyOf v = vt) :
    WTm vt (setKey l k v) = true := by
  induction l with
  | nil => simp [setKey, WTm, h1, h2, MTy.beq_refl]
  | cons p l ih =>
    obtain ⟨ka, va⟩ := p
    simp only [WTm, Bool.and_eq_true] at hw
    by_cases ha : k = ka
    · simp only [setKey, if_pos ha, WTm, Bool.and_eq_true]
      exact ⟨⟨by rw [h2]; exact MTy.beq_refl vt, h1⟩, hw.2⟩
    · by_cases hb : k < ka
      · simp only [setKey, if_neg ha, if_pos hb, WTm, Bool.and_eq_true]
        exact ⟨⟨by rw [h2]; exact MTy.beq_refl vt, h1⟩, hw.1, hw.2⟩
      · simp only [setKey, if_neg ha, if_neg hb, WTm, Bool.and_eq_true]
        exact ⟨hw.1, ih hw.2⟩

theorem sortedKeys_lookup_self {l : List (Int × MVal)} {k : Int} {v : MVal}
    (hs : sortedKeys l = true) (h : (k, v) ∈ l) : lookupKey l k = some v := by
  induction l with
  | nil => simp at h
  | cons p l ih =>
    obtain ⟨ka, va⟩ := p
    simp only [sortedKeys, Bool.and_eq_true] at hs
    rcases List.mem_cons.mp h with h1 | h1
    · cases h1
      simp [lookupKey]
    · have hlt : ka < k := by
        have := hs.1
        simp only [keyLt, List.all_eq_true, decide_eq_true_eq] at this
        exact this (k, v) h1
      have : k ≠ ka := by omega
      simp only [lookupKey, if_neg this]
      exact ih hs.2 h1


/-! ## Facts about the keywise merge loop -/

theorem mergeEntries_lookup_frame {vt : MTy} :
    ∀ (lb : List (Int × MVal)) (la : List (Int × MVal)) (k : Int), keyLt k lb = true →
      lookupKey (mergeEntries vt la lb).1 k = lookupKey la k := by
  intro lb
  induction lb with
  | nil => intro la k _; simp
  | cons p lb ih =>
    obtain ⟨kb, bv⟩ := p
    intro la k hk
    rw [keyLt_iff] at hk
    have hkb : k ≠ kb := by
      have := hk (kb, bv) (List.mem_cons_self _ _)
      omega
    have hk2 : keyLt k lb = true := by
      rw [keyLt_iff]
      intro p hp
      exact hk p (List.mem_cons_of_mem _ hp)
    cases hl : lookupKey la kb with
    | none =>
      rw [mergeEntries_cons_absent vt la lb kb bv hl]
      rw [ih (setKey la kb bv) k hk2]
      exact lookupKey_setKey_ne la kb k bv hkb
    | some av =>
      rw [mergeEntries_cons_found vt la lb kb av bv hl]
      by_cases hc : (merge vt (merge vt (zeroOf vt) av).1 bv).2
      · rw [if_pos hc]
        rw [ih (setKey la kb (merge vt (merge vt (zeroOf vt) av).1 bv).1) k hk2]
        exact lookupKey_setKey_ne la kb k _ hkb
      · rw [if_neg hc]
        exact ih la k hk2

theorem mergeEntries_flag_false {vt : MTy} :
    ∀ (lb : List (Int × MVal)) (la : List (Int × MVal)),
      (mergeEntries vt la lb).2 = false → (mergeEntries vt la lb).1 = la := by
  intro lb
  induction lb with
  | nil => intro la _; simp
  | cons p lb ih =>
    obtain ⟨kb, bv⟩ := p
    intro la hf
    cases hl : lookupKey la kb with
    | none =>
      rw [mergeEntries_cons_absent vt la lb kb bv hl] at hf
      exact absurd hf (by simp)
    | some av =>
      rw [mergeEntries_cons_found vt la lb kb av bv hl] at hf ⊢
      by_cases hc : (merge vt (merge vt (zeroOf vt) av).1 bv).2
      · rw [if_pos hc] at hf
        exact absurd hf (by simp)
      · rw [if_neg hc] at hf ⊢
        exact ih la hf

theorem sortedKeys_append_allLt {la lb : List (Int × MVal)} {k : Int} {v : MVal}
    (hs : sortedKeys (la ++ (k, v) :: lb) = true) : ∀ p ∈ la, p.1 < k := by
  induction la with
  | nil => simp
  | cons q la ih =>
    obtain ⟨ja, ua⟩ := q
    simp only [List.cons_append, sortedKeys, Bool.and_eq_true] at hs
    intro p hp
    rcases List.mem_cons.mp hp with h1 | h1
    · rw [h1]
      have := hs.1
      rw [keyLt_iff] at this
      exact this (k, v) (by simp)
    · exact ih hs.2 p h1

theorem lookupKey_eq_none {la : List (Int × MVal)} {k : Int}
    (h : ∀ p ∈ la, p.1 < k) : lookupKey la k = none := by
  induction la with
  | nil => simp [lookupKey]
  | cons q la ih =>
    obtain ⟨ja, ua⟩ := q
    have hja : ja < k := h (ja, ua) (List.mem_cons_self _ _)
    have : k ≠ ja := by omega
    simp only [lookupKey, if_neg this]
    exact ih fun p hp => h p (List.mem_cons_of_mem _ hp)

theorem setKey_append {la : List (Int × MVal)} {k : Int} {v : MVal}
    (h : ∀ p ∈ la, p.1 < k) : setKey la k v = la ++ [(k, v)] := by
  induction la with
  | nil => simp [setKey]
  | cons q la ih =>
    obtain ⟨ja, ua⟩ := q
    have hja : ja < k := h (ja, ua) (List.mem_cons_self _ _)
    have h1 : ¬k = ja := by omega
    have h2 : ¬k < ja := by omega
    simp only [setKey, if_neg h1, if_neg h2, List.cons_append, List.cons.injEq, true_and]
    exact ih fun p hp => h p (List.mem_cons_of_mem _ hp)

theorem mergeEntries_copy {vt : MTy} :
    ∀ (lb : List (Int × MVal)) (la : List (Int × MVal)),
      sortedKeys (la ++ lb) = true → (mergeEntries vt la lb).1 = la ++ lb := by
  intro lb
  induction lb with
  | nil => intro la _; simp
  | cons p lb ih =>
    obtain ⟨k, bv⟩ := p
    intro la hs
    have hlt : ∀ p ∈ la, p.1 < k := sortedKeys_append_allLt hs
    rw [mergeEntries_cons_absent vt la lb k bv (lookupKey_eq_none hlt)]
    rw [setKey_append hlt]
    have heq : (la ++ [(k, bv)]) ++ lb = la ++ (k, bv) :: lb := by simp
    rw [ih (la ++ [(k, bv)]) (by rw [heq]; exact hs), heq]

theorem eqvEntries_lookup :
    ∀ (l1 l2 : List (Int × MVal)), eqvEntries l1 l2 = true →
      ∀ k : Int, eqvO (lookupKey l1 k) (lookupKey l2 k) = true := by
  intro l1
  induction l1 with
  | nil =>
    intro l2 h k
    cases l2 with
    | nil => simp [lookupKey, eqvO]
    | cons q l2 => simp [eqvEntries] at h
  | cons p l1 ih =>
    intro l2 h k
    obtain ⟨k1, v1⟩ := p
    cases l2 with
    | nil => simp [eqvEntries] at h
    | cons q l2 =>
      obtain ⟨k2, v2⟩ := q
      rw [eqvEntries] at h
      simp only [Bool.and_eq_true, beq_iff_eq] at h
      obtain ⟨⟨hk12, hv⟩, hrest⟩ := h
      subst hk12
      by_cases hk : k = k1
      · simp only [lookupKey, if_pos hk, eqvO]
        exact hv
      · simp only [lookupKey, if_neg hk]
        exact ih l2 hrest k

theorem eqvEntries_false_of_witness {l1 l2 : List (Int × MVal)} (k : Int)
    (h : eqvO (lookupKey l1 k) (lookupKey l2 k) = false) : eqvEntries l1 l2 = false := by
  cases heq : eqvEntries l1 l2 with
  | false => rfl
  | true => rw [eqvEntries_lookup l1 l2 heq k] at h; exact Bool.noConfusion h


theorem mergeEntries_cons_absent_fst {vt : MTy} {la lb : List (Int × MVal)} {k : Int}
    {bv : MVal} (h : lookupKey la k = none) :
    (mergeEntries vt la ((k, bv) :: lb)).1 = (mergeEntries vt (setKey la k bv) lb).1 := by
  rw [mergeEntries_cons_absent vt la lb k bv h]

theorem mergeEntries_cons_absent_snd {vt : MTy} {la lb : List (Int × MVal)} {k : Int}
    {bv : MVal} (h : lookupKey la k = none) :
    (mergeEntries vt la ((k, bv) :: lb)).2 = true := by
  rw [mergeEntries_cons_absent vt la lb k bv h]

theorem mergeEntries_cons_found_pos {vt : MTy} {la lb : List (Int × MVal)} {k : Int}
    {av bv : MVal} (h : lookupKey la k = some av)
    (hc : (merge vt (merge vt (zeroOf vt) av).1 bv).2 = true) :
    (mergeEntries vt la ((k, bv) :: lb)).1 =
        (mergeEntries vt (setKey la k (merge vt (merge vt (zeroOf vt) av).1 bv).1) lb).1 ∧
      (mergeEntries vt la ((k, bv) :: lb)).2 = true := by
  rw [mergeEntries_cons_found vt la lb k av bv h, if_pos hc]
  exact ⟨rfl, rfl⟩

theorem mergeEntries_cons_found_neg {vt : MTy} {la lb : List (Int × MVal)} {k : Int}
    {av bv : MVal} (h : lookupKey la k = some av)
    (hc : (merge vt (merge vt (zeroOf vt) av).1 bv).2 = false) :
    mergeEntries vt la ((k, bv) :: lb) = mergeEntries vt la lb := by
  rw [mergeEntries_cons_found vt la lb k av bv h, if_neg (by rw [hc]; exact Bool.false_ne_true)]

/-! ## The keywise loop preserves well-formedness -/

theorem mergeEntries_WT {vt : MTy}
    (HL6 : ∀ a b, WT a = true → WT b = true → tyOf a = vt → tyOf b = vt →
      WT (merge vt a b).1 = true ∧ tyOf (merge vt a b).1 = vt) :
    ∀ (lb la : List (Int × MVal)), sortedKeys la = true → WTm vt la = true →
      WTm vt lb = true →
      sortedKeys (mergeEntries vt la lb).1 = true ∧ WTm vt (mergeEntries vt la lb).1 = true := by
  intro lb
  induction lb with
  | nil =>
    intro la hs hw _
    simpa using ⟨hs, hw⟩
  | cons p lb ih =>
    obtain ⟨kb, bv⟩ := p
    intro la hs hw hwb
    simp only [WTm, Bool.and_eq_true] at hwb
    obtain ⟨⟨hbty, hbw⟩, hwb2⟩ := hwb
    have hbty2 : tyOf bv = vt := MTy.beq_sound hbty
    cases hl : lookupKey la kb with
    | none =>
      rw [mergeEntries_cons_absent_fst hl]
      exact ih (setKey la kb bv) (sortedKeys_setKey hs) (WTm_setKey hw hbw hbty2) hwb2
    | some av =>
      have hav := WTm_lookupKey hw hl
      have hn1 := HL6 (zeroOf vt) av (WT_zeroOf vt) hav.1 (tyOf_zeroOf vt) hav.2
      have hn2 := HL6 (merge vt (zeroOf vt) av).1 bv hn1.1 hbw hn1.2 hbty2
      cases hc : (merge vt (merge vt (zeroOf vt) av).1 bv).2 with
      | true =>
        rw [(mergeEntries_cons_found_pos hl hc).1]
        exact ih _ (sortedKeys_setKey hs) (WTm_setKey hw hn2.1 hn2.2) hwb2
      | false =>
        rw [mergeEntries_cons_found_neg hl hc]
        exact ih la hs hw hwb2

/-! ## Merging a map into itself changes nothing -/

theorem mergeEntries_self {vt : MTy}
    (HP1 : ∀ a, WT a = true → tyOf a = vt →
      (merge vt (merge vt (zeroOf vt) a).1 a).2 = false) :
    ∀ (lb la : List (Int × MVal)), WTm vt lb = true →
      (∀ k v, (k, v) ∈ lb → lookupKey la k = some v) →
      mergeEntries vt la lb = (la, false) := by
  intro lb
  induction lb with
  | nil => intro la _ _; simp
  | cons p lb ih =>
    obtain ⟨kb, bv⟩ := p
    intro la hwb hmem
    simp only [WTm, Bool.and_eq_true] at hwb
    obtain ⟨⟨hbty, hbw⟩, hwb2⟩ := hwb
    have hl : lookupKey la kb = some bv := hmem kb bv (List.mem_cons_self _ _)
    rw [mergeEntries_cons_found_neg hl (HP1 bv hbw (MTy.beq_sound hbty))]
    exact ih la hwb2 fun k v hm => hmem k v (List.mem_cons_of_mem _ hm)

/-! ## A reported change makes some entry observably different -/

theorem mergeEntries_changed {vt : MTy}
    (HL6 : ∀ a b, WT a = true → WT b = true → tyOf a = vt → tyOf b = vt →
      WT (merge vt a b).1 = true ∧ tyOf (merge vt a b).1 = vt)
    (HP2 : ∀ a w, WT a = true → WT w = true → tyOf a = vt → tyOf w = vt →
      (merge vt (merge vt (zeroOf vt) a).1 w).2 = true →
      eqv (merge vt (merge vt (zeroOf vt) a).1 w).1 a = false) :
    ∀ (lb la : List (Int × MVal)), WTm vt la = true → sortedKeys lb = true →
      WTm vt lb = true → (mergeEntries vt la lb).2 = true →
      ∃ k, eqvO (lookupKey (mergeEntries vt la lb).1 k) (lookupKey la k) = false := by
  intro lb
  induction lb with
  | nil => intro la _ _ _ hf; simp at hf
  | cons p lb ih =>
    obtain ⟨kb, bv⟩ := p
    intro la hwa hsb hwb hf
    simp only [sortedKeys, Bool.and_eq_true] at hsb
    simp only [WTm, Bool.and_eq_true] at hwb
    obtain ⟨⟨hbty, hbw⟩, hwb2⟩ := hwb
    cases hl : lookupKey la kb with
    | none =>
      refine ⟨kb, ?_⟩
      rw [mergeEntries_cons_absent_fst hl]
      rw [mergeEntries_lookup_frame lb (setKey la kb bv) kb hsb.1]
      rw [lookupKey_setKey_self, hl]
      rfl
    | some av =>
      have hav := WTm_lookupKey hwa hl
      cases hc : (merge vt (merge vt (zeroOf vt) av).1 bv).2 with
      | true =>
        refine ⟨kb, ?_⟩
        rw [(mergeEntries_cons_found_pos hl hc).1]
        rw [mergeEntries_lookup_frame lb _ kb hsb.1]
        rw [lookupKey_setKey_self, hl]
        exact HP2 av bv hav.1 hbw hav.2 (MTy.beq_sound hbty) hc
      | false =>
        rw [mergeEntries_cons_found_neg hl hc] at hf ⊢
        exact ih la hwa hsb.2 hwb2 hf


/-! ## The six merge properties, proved by one induction over types

For every type t of the universe and well-formed values of type t:
KeepsWT: merge preserves well-formedness and the type;
Idem: merging a value into itself is a no-op and reports no change;
FlagFalseEqv: a false changed flag means the target kept its observable value;
FlagTrueNeq: a true changed flag means the target observably changed;
ZeroSelfNoFlag: after folding a into a fresh zero, folding a again reports no
change (the scratch pattern of the map loop on equal values);
ZeroMergeNeq: if folding w after a into a fresh zero reports a change, the
result observably differs from a (the scratch pattern on a shared key). -/

def KeepsWT (t : MTy) : Prop :=
  ∀ a b : MVal, WT a = true → WT b = true → tyOf a = t → tyOf b = t →
    WT (merge t a b).1 = true ∧ tyOf (merge t a b).1 = t

def Idem (t : MTy) : Prop :=
  ∀ a : MVal, WT a = true → tyOf a = t → merge t a a = (a, false)

def FlagFalseEqv (t : MTy) : Prop :=
  ∀ a b : MVal, WT a = true → WT b = true → tyOf a = t → tyOf b = t →
    (merge t a b).2 = false → eqv (merge t a b).1 a = true

def FlagTrueNeq (t : MTy) : Prop :=
  ∀ a b : MVal, WT a = true → WT b = true → tyOf a = t → tyOf b = t →
    (merge t a b).2 = true → eqv (merge t a b).1 a = false

def ZeroSelfNoFlag (t : MTy) : Prop :=
  ∀ a : MVal, WT a = true → tyOf a = t →
    (merge t (merge t (zeroOf t) a).1 a).2 = false

def ZeroMergeNeq (t : MTy) : Prop :=
  ∀ a w : MVal, WT a = true → WT w = true → tyOf a = t → tyOf w = t →
    (merge t (merge t (zeroOf t) a).1 w).2 = true →
    eqv (merge t (merge t (zeroOf t) a).1 w).1 a = false

/-- The six properties bundled for a type. -/
def BT (t : MTy) : Prop :=
  KeepsWT t ∧ Idem t ∧ FlagFalseEqv t ∧ FlagTrueNeq t ∧ ZeroSelfNoFlag t ∧ ZeroMergeNeq t

/-- The six properties bundled for the fieldwise merge over a field type list. -/
def BQ (ts : List MTy) : Prop :=
  (∀ fa fb : List MVal, WTs fa = true → WTs fb = true → tysOf fa = ts → tysOf fb = ts →
    WTs (mergeFields ts fa fb).1 = true ∧ tysOf (mergeFields ts fa fb).1 = ts) ∧
  (∀ fa : List MVal, WTs fa = true → tysOf fa = ts → mergeFields ts fa fa = (fa, false)) ∧
  (∀ fa fb : List MVal, WTs fa = true → WTs fb = true → tysOf fa = ts → tysOf fb = ts →
    (mergeFields ts fa fb).2 = false → eqvs (mergeFields ts fa fb).1 fa = true) ∧
  (∀ fa fb : List MVal, WTs fa = true → WTs fb = true → tysOf fa = ts → tysOf fb = ts →
    (mergeFields ts fa fb).2 = true → eqvs (mergeFields ts fa fb).1 fa = false) ∧
  (∀ fa : List MVal, WTs fa = true → tysOf fa = ts →
    (mergeFields ts (mergeFields ts (zerosOf ts) fa).1 fa).2 = false) ∧
  (∀ fa fw : List MVal, WTs fa = true → WTs fw = true → tysOf fa = ts → tysOf fw = ts →
    (mergeFields ts (mergeFields ts (zerosOf ts) fa).1 fw).2 = true →
    eqvs (mergeFields ts (mergeFields ts (zerosOf ts) fa).1 fw).1 fa = false)

/-! ## Scalar scratch computations -/

theorem gtStr_irrefl (s : List Nat) : gtStr s s = false := by
  induction s with
  | nil => rfl
  | cons a s ih => simp [gtStr, ih]

theorem gtStr_ne {a b : List Nat} (h : gtStr a b = true) : a ≠ b := by
  intro he
  subst he
  rw [gtStr_irrefl] at h
  exact Bool.noConfusion h

theorem merge_zero_bool (x : Bool) :
    (merge .tbool (zeroOf .tbool) (.vbool x)).1 = .vbool x := by
  cases x <;> simp [zeroOf, greater]

theorem merge_zero_str (s : List Nat) :
    (merge .tstr (zeroOf .tstr) (.vstr s)).1 = .vstr s := by
  cases s <;> simp [zeroOf, greater, gtStr]

theorem merge_zero_int (x : Int) :
    ∃ m : Int, (merge .tint (zeroOf .tint) (.vint x)).1 = .vint m ∧ x ≤ m := by
  by_cases h : 0 < x
  · exact ⟨x, by simp [zeroOf, greater, h], le_refl x⟩
  · exact ⟨0, by simp [zeroOf, greater, h], by omega⟩

theorem merge_zero_dec (x : Int) :
    ∃ m : Int, (merge .tdec (zeroOf .tdec) (.vdec x)).1 = .vdec m ∧ m ≤ x := by
  by_cases h : x < 0
  · exact ⟨x, by simp [zeroOf, decreasingIntMerge, h], le_refl x⟩
  · exact ⟨0, by simp [zeroOf, decreasingIntMerge, h], by omega⟩

/-! ## The bundle for each scalar type -/

theorem bundle_tbool : BT .tbool := by
  refine ⟨?_, ?_, ?_, ?_, ?_, ?_⟩
  · intro a b _ _ hta htb
    obtain ⟨x, rfl⟩ := tyOf_tbool hta
    obtain ⟨y, rfl⟩ := tyOf_tbool htb
    by_cases h : greater (.vbool y) (.vbool x)
    · simp [h, WT, tyOf]
    · simp [h, WT, tyOf]
  · intro a _ hta
    obtain ⟨x, rfl⟩ := tyOf_tbool hta
    simp [greater]
  · intro a b _ _ hta htb
    obtain ⟨x, rfl⟩ := tyOf_tbool hta
    obtain ⟨y, rfl⟩ := tyOf_tbool htb
    by_cases h : greater (.vbool y) (.vbool x)
    · simp [h]
    · simp [h, eqv]
  · intro a b _ _ hta htb hf
    obtain ⟨x, rfl⟩ := tyOf_tbool hta
    obtain ⟨y, rfl⟩ := tyOf_tbool htb
    by_cases h : greater (.vbool y) (.vbool x)
    · have hxy : y = true ∧ x = false := by
        simpa [greater, Bool.and_eq_true] using h
      simp [h, eqv, hxy.1, hxy.2, greater]
    · simp [h] at hf
  · intro a _ hta
    obtain ⟨x, rfl⟩ := tyOf_tbool hta
    rw [merge_zero_bool]
    simp [greater]
  · intro a w _ _ hta htw hf
    obtain ⟨x, rfl⟩ := tyOf_tbool hta
    obtain ⟨z, rfl⟩ := tyOf_tbool htw
    rw [merge_zero_bool] at hf ⊢
    by_cases h : greater (.vbool z) (.vbool x)
    · have hxy : z = true ∧ x = false := by
        simpa [greater, Bool.and_eq_true] using h
      simp [h, eqv, hxy.1, hxy.2, greater]
    · simp [h] at hf

theorem bundle_tint : BT .tint := by
  refine ⟨?_, ?_, ?_, ?_, ?_, ?_⟩
  · intro a b _ _ hta htb
    obtain ⟨x, rfl⟩ := tyOf_tint hta
    obtain ⟨y, rfl⟩ := tyOf_tint htb
    by_cases h : greater (.vint y) (.vint x)
    · simp [h, WT, tyOf]
    · simp [h, WT, tyOf]
  · intro a _ hta
    obtain ⟨x, rfl⟩ := tyOf_tint hta
    simp [greater]
  · intro a b _ _ hta htb
    obtain ⟨x, rfl⟩ := tyOf_tint hta
    obtain ⟨y, rfl⟩ := tyOf_tint htb
    by_cases h : greater (.vint y) (.vint x)
    · simp [h]
    · simp [h, eqv]
  · intro a b _ _ hta htb hf
    obtain ⟨x, rfl⟩ := tyOf_tint hta
    obtain ⟨y, rfl⟩ := tyOf_tint htb
    by_cases h : greater (.vint y) (.vint x)
    · have hxy : x < y := by simpa [greater] using h
      simp only [h, if_true, merge_tint, eqv]
      simp
      omega
    · simp [h] at hf
  · intro a _ hta
    obtain ⟨x, rfl⟩ := tyOf_tint hta
    obtain ⟨m, hm, hle⟩ := merge_zero_int x
    rw [hm]
    have h : greater (.vint x) (.vint m) = false := by
      simp [greater]
      omega
    simp [h]
  · intro a w _ _ hta htw hf
    obtain ⟨x, rfl⟩ := tyOf_tint hta
    obtain ⟨z, rfl⟩ := tyOf_tint htw
    obtain ⟨m, hm, hle⟩ := merge_zero_int x
    rw [hm] at hf ⊢
    by_cases h : greater (.vint z) (.vint m)
    · have hmz : m < z := by simpa [greater] using h
      simp only [h, if_true, merge_tint, eqv]
      simp
      omega
    · simp [h] at hf

theorem bundle_tstr : BT .tstr := by
  refine ⟨?_, ?_, ?_, ?_, ?_, ?_⟩
  · intro a b _ _ hta htb
    obtain ⟨x, rfl⟩ := tyOf_tstr hta
    obtain ⟨y, rfl⟩ := tyOf_tstr htb
    by_cases h : greater (.vstr y) (.vstr x)
    · simp [h, WT, tyOf]
    · simp [h, WT, tyOf]
  · intro a _ hta
    obtain ⟨x, rfl⟩ := tyOf_tstr hta
    simp [greater, gtStr_irrefl]
  · intro a b _ _ hta htb
    obtain ⟨x, rfl⟩ := tyOf_tstr hta
    obtain ⟨y, rfl⟩ := tyOf_tstr htb
    by_cases h : greater (.vstr y) (.vstr x)
    · simp [h]
    · simp [h, eqv]
  · intro a b _ _ hta htb hf
    obtain ⟨x, rfl⟩ := tyOf_tstr hta
    obtain ⟨y, rfl⟩ := tyOf_tstr htb
    by_cases h : greater (.vstr y) (.vstr x)
    · have hxy : y ≠ x := gtStr_ne (by simpa [greater] using h)
      simp [h, eqv, hxy]
    · simp [h] at hf
  · intro a _ hta
    obtain ⟨x, rfl⟩ := tyOf_tstr hta
    rw [merge_zero_str]
    simp [greater, gtStr_irrefl]
  · intro a w _ _ hta htw hf
    obtain ⟨x, rfl⟩ := tyOf_tstr hta
    obtain ⟨z, rfl⟩ := tyOf_tstr htw
    rw [merge_zero_str] at hf ⊢
    by_cases h : greater (.vstr z) (.vstr x)
    · have hxy : z ≠ x := gtStr_ne (by simpa [greater] using h)
      simp [h, eqv, hxy]
    · simp [h] at hf

theorem bundle_tdec : BT .tdec := by
  refine ⟨?_, ?_, ?_, ?_, ?_, ?_⟩
  · intro a b _ _ hta htb
    obtain ⟨x, rfl⟩ := tyOf_tdec hta
    obtain ⟨y, rfl⟩ := tyOf_tdec htb
    by_cases h : y < x
    · simp [decreasingIntMerge, h, WT, tyOf]
    · simp [decreasingIntMerge, h, WT, tyOf]
  · intro a _ hta
    obtain ⟨x, rfl⟩ := tyOf_tdec hta
    simp [decreasingIntMerge]
  · intro a b _ _ hta htb
    obtain ⟨x, rfl⟩ := tyOf_tdec hta
    obtain ⟨y, rfl⟩ := tyOf_tdec htb
    by_cases h : y < x
    · simp [decreasingIntMerge, h]
    · simp [decreasingIntMerge, h, eqv]
  · intro a b _ _ hta htb hf
    obtain ⟨x, rfl⟩ := tyOf_tdec hta
    obtain ⟨y, rfl⟩ := tyOf_tdec htb
    by_cases h : y < x
    · simp only [merge_tdec, decreasingIntMerge, h, if_true, eqv]
      simp
      omega
    · simp [decreasingIntMerge, h] at hf
  · intro a _ hta
    obtain ⟨x, rfl⟩ := tyOf_tdec hta
    obtain ⟨m, hm, hle⟩ := merge_zero_dec x
    rw [hm]
    have h : ¬x < m := by omega
    simp [decreasingIntMerge, h]
  · intro a w _ _ hta htw hf
    obtain ⟨x, rfl⟩ := tyOf_tdec hta
    obtain ⟨z, rfl⟩ := tyOf_tdec htw
    obtain ⟨m, hm, hle⟩ := merge_zero_dec x
    rw [hm] at hf ⊢
    by_cases h : z < m
    · simp only [merge_tdec, decreasingIntMerge, h, if_true, eqv]
      simp
      omega
    · simp [decreasingIntMerge, h] at hf


/-! ## The bundle for struct field lists -/

theorem bundle_nil : BQ [] := by
  refine ⟨?_, ?_, ?_, ?_, ?_, ?_⟩
  · intro fa fb _ _ hta htb
    cases tysOf_nil hta
    cases tysOf_nil htb
    simp [WTs, tysOf]
  · intro fa _ hta
    cases tysOf_nil hta
    simp
  · intro fa fb _ _ hta htb _
    cases tysOf_nil hta
    cases tysOf_nil htb
    simp [eqvs]
  · intro fa fb _ _ hta htb hf
    cases tysOf_nil hta
    cases tysOf_nil htb
    simp at hf
  · intro fa _ hta
    cases tysOf_nil hta
    simp [zerosOf]
  · intro fa fw _ _ hta htw hf
    cases tysOf_nil hta
    cases tysOf_nil htw
    simp [zerosOf] at hf

theorem bundle_cons (t : MTy) (ts : List MTy) (hbt : BT t) (hbq : BQ ts) :
    BQ (t :: ts) := by
  obtain ⟨h6, h5, h1, h2, hp1, hp2⟩ := hbt
  obtain ⟨q6, q5, q1, q2, qp1, qp2⟩ := hbq
  refine ⟨?_, ?_, ?_, ?_, ?_, ?_⟩
  · intro fa fb hwa hwb hta htb
    obtain ⟨a, as, rfl, hat, hast⟩ := tysOf_cons hta
    obtain ⟨b, bs, rfl, hbt2, hbst⟩ := tysOf_cons htb
    simp only [WTs, Bool.and_eq_true] at hwa hwb
    have ha := h6 a b hwa.1 hwb.1 hat hbt2
    have has := q6 as bs hwa.2 hwb.2 hast hbst
    simp [WTs, tysOf, ha.1, ha.2, has.1, has.2]
  · intro fa hwa hta
    obtain ⟨a, as, rfl, hat, hast⟩ := tysOf_cons hta
    simp only [WTs, Bool.and_eq_true] at hwa
    simp [h5 a hwa.1 hat, q5 as hwa.2 hast]
  · intro fa fb hwa hwb hta htb hf
    obtain ⟨a, as, rfl, hat, hast⟩ := tysOf_cons hta
    obtain ⟨b, bs, rfl, hbt2, hbst⟩ := tysOf_cons htb
    simp only [WTs, Bool.and_eq_true] at hwa hwb
    simp only [mergeFields_cons, Bool.or_eq_false_iff] at hf
    simp [eqvs, h1 a b hwa.1 hwb.1 hat hbt2 hf.1, q1 as bs hwa.2 hwb.2 hast hbst hf.2]
  · intro fa fb hwa hwb hta htb hf
    obtain ⟨a, as, rfl, hat, hast⟩ := tysOf_cons hta
    obtain ⟨b, bs, rfl, hbt2, hbst⟩ := tysOf_cons htb
    simp only [WTs, Bool.and_eq_true] at hwa hwb
    simp only [mergeFields_cons, Bool.or_eq_true] at hf
    rcases hf with hf | hf
    · simp [eqvs, h2 a b hwa.1 hwb.1 hat hbt2 hf]
    · simp [eqvs, q2 as bs hwa.2 hwb.2 hast hbst hf]
  · intro fa hwa hta
    obtain ⟨a, as, rfl, hat, hast⟩ := tysOf_cons hta
    simp only [WTs, Bool.and_eq_true] at hwa
    simp [zerosOf, hp1 a hwa.1 hat, qp1 as hwa.2 hast]
  · intro fa fw hwa hww hta htw hf
    obtain ⟨a, as, rfl, hat, hast⟩ := tysOf_cons hta
    obtain ⟨w, ws, rfl, hwt, hwst⟩ := tysOf_cons htw
    simp only [WTs, Bool.and_eq_true] at hwa hww
    simp only [zerosOf, mergeFields_cons, Bool.or_eq_true] at hf
    rcases hf with hf | hf
    · simp [zerosOf, eqvs, hp2 a w hwa.1 hww.1 hat hwt hf]
    · simp [zerosOf, eqvs, qp2 as ws hwa.2 hww.2 hast hwst hf]

theorem bundle_tstruct (fts : List MTy) (hbq : BQ fts) : BT (.tstruct fts) := by
  obtain ⟨q6, q5, q1, q2, qp1, qp2⟩ := hbq
  refine ⟨?_, ?_, ?_, ?_, ?_, ?_⟩
  · intro a b hwa hwb hta htb
    obtain ⟨fa, rfl, hfa⟩ := tyOf_tstruct hta
    obtain ⟨fb, rfl, hfb⟩ := tyOf_tstruct htb
    simp only [WT] at hwa hwb
    have h := q6 fa fb hwa hwb hfa hfb
    simp [WT, tyOf, h.1, h.2]
  · intro a hwa hta
    obtain ⟨fa, rfl, hfa⟩ := tyOf_tstruct hta
    simp only [WT] at hwa
    simp [q5 fa hwa hfa]
  · intro a b hwa hwb hta htb hf
    obtain ⟨fa, rfl, hfa⟩ := tyOf_tstruct hta
    obtain ⟨fb, rfl, hfb⟩ := tyOf_tstruct htb
    simp only [WT] at hwa hwb
    simp only [merge_tstruct] at hf ⊢
    simp [eqv, q1 fa fb hwa hwb hfa hfb hf]
  · intro a b hwa hwb hta htb hf
    obtain ⟨fa, rfl, hfa⟩ := tyOf_tstruct hta
    obtain ⟨fb, rfl, hfb⟩ := tyOf_tstruct htb
    simp only [WT] at hwa hwb
    simp only [merge_tstruct] at hf ⊢
    simp [eqv, q2 fa fb hwa hwb hfa hfb hf]
  · intro a hwa hta
    obtain ⟨fa, rfl, hfa⟩ := tyOf_tstruct hta
    simp only [WT] at hwa
    have hz : zeroOf (.tstruct fts) = .vstruct (zerosOf fts) := by simp [zeroOf]
    rw [hz]
    simp [qp1 fa hwa hfa]
  · intro a w hwa hww hta htw hf
    obtain ⟨fa, rfl, hfa⟩ := tyOf_tstruct hta
    obtain ⟨fw, rfl, hfw⟩ := tyOf_tstruct htw
    simp only [WT] at hwa hww
    have hz : zeroOf (.tstruct fts) = .vstruct (zerosOf fts) := by simp [zeroOf]
    rw [hz] at hf ⊢
    simp only [merge_tstruct] at hf ⊢
    simp [eqv, qp2 fa fw hwa hww hfa hfw hf]

/-! ## The zero map is a left identity of merge -/

theorem merge_zero_map {vt : MTy} {mv : Option (List (Int × MVal))}
    (hw : WT (.vmap vt mv) = true) :
    (merge (.tmap vt) (zeroOf (.tmap vt)) (.vmap vt mv)).1 = .vmap vt mv := by
  have hz : zeroOf (.tmap vt) = .vmap vt none := by simp [zeroOf]
  rw [hz]
  cases mv with
  | none => simp
  | some lv =>
    have hs : sortedKeys lv = true := by
      simp only [WT, Bool.and_eq_true] at hw
      exact hw.1
    simp only [merge_tmap_some, Option.getD_none]
    rw [mergeEntries_copy lv [] (by simpa using hs)]
    simp

/-! ## The bundle for map types -/

theorem bundle_tmap (vt : MTy) (hv : BT vt) : BT (.tmap vt) := by
  obtain ⟨h6, h5, h1, h2, hp1, hp2⟩ := hv
  have k6 : KeepsWT (.tmap vt) := by
    intro a b hwa hwb hta htb
    obtain ⟨ma, rfl⟩ := tyOf_tmap hta
    obtain ⟨mb, rfl⟩ := tyOf_tmap htb
    cases mb with
    | none =>
      simp only [merge_tmap_nil]
      exact ⟨hwa, rfl⟩
    | some lb =>
      have hwb2 : sortedKeys lb = true ∧ WTm vt lb = true := by
        simpa [WT, Bool.and_eq_true] using hwb
      have hla0 : sortedKeys (ma.getD []) = true ∧ WTm vt (ma.getD []) = true := by
        cases ma with
        | none => simp [sortedKeys, WTm]
        | some la => simpa [WT, Bool.and_eq_true] using hwa
      have hres := mergeEntries_WT h6 lb (ma.getD []) hla0.1 hla0.2 hwb2.2
      simp only [merge_tmap_some]
      constructor
      · simp [WT, hres.1, hres.2]
      · simp [tyOf]
  have k5 : Idem (.tmap vt) := by
    intro a hwa hta
    obtain ⟨ma, rfl⟩ := tyOf_tmap hta
    cases ma with
    | none => simp
    | some la =>
      have hw : sortedKeys la = true ∧ WTm vt la = true := by
        simpa [WT, Bool.and_eq_true] using hwa
      have hself := mergeEntries_self hp1 la la hw.2
        (fun k v hm => sortedKeys_lookup_self hw.1 hm)
      simp [hself]
  have k1 : FlagFalseEqv (.tmap vt) := by
    intro a b hwa hwb hta htb hf
    obtain ⟨ma, rfl⟩ := tyOf_tmap hta
    obtain ⟨mb, rfl⟩ := tyOf_tmap htb
    cases mb with
    | none =>
      simp only [merge_tmap_nil]
      exact eqv_refl _
    | some lb =>
      simp only [merge_tmap_some] at hf ⊢
      rw [mergeEntries_flag_false lb (ma.getD []) hf]
      simp [eqv, MTy.beq_refl, eqvEntries_refl]
  have k2 : FlagTrueNeq (.tmap vt) := by
    intro a b hwa hwb hta htb hf
    obtain ⟨ma, rfl⟩ := tyOf_tmap hta
    obtain ⟨mb, rfl⟩ := tyOf_tmap htb
    cases mb with
    | none => simp at hf
    | some lb =>
      have hwb2 : sortedKeys lb = true ∧ WTm vt lb = true := by
        simpa [WT, Bool.and_eq_true] using hwb
      have hla0 : WTm vt (ma.getD []) = true := by
        cases ma with
        | none => simp [WTm]
        | some la => exact (by simpa [WT, Bool.and_eq_true] using hwa : _ ∧ _).2
      simp only [merge_tmap_some] at hf ⊢
      obtain ⟨k, hk⟩ := mergeEntries_changed h6 hp2 lb (ma.getD []) hla0 hwb2.1 hwb2.2 hf
      have hfalse := eqvEntries_false_of_witness k hk
      simp [eqv, hfalse]
  have kp1 : ZeroSelfNoFlag (.tmap vt) := by
    intro a hwa hta
    obtain ⟨ma, rfl⟩ := tyOf_tmap hta
    rw [merge_zero_map hwa, k5 _ hwa rfl]
  have kp2 : ZeroMergeNeq (.tmap vt) := by
    intro a w hwa hww hta htw hf
    obtain ⟨ma, rfl⟩ := tyOf_tmap hta
    rw [merge_zero_map hwa] at hf ⊢
    exact k2 _ w hwa hww rfl htw hf
  exact ⟨k6, k5, k1, k2, kp1, kp2⟩

/-! ## The master induction -/

theorem master_aux : ∀ n : Nat,
    (∀ t : MTy, sizeOf t ≤ n → BT t) ∧ (∀ ts : List MTy, sizeOf ts ≤ n → BQ ts) := by
  intro n
  induction n with
  | zero =>
    constructor
    · intro t ht; exfalso; cases t <;> simp at ht
    · intro ts ht; exfalso; cases ts <;> simp at ht <;> omega
  | succ n ih =>
    constructor
    · intro t ht
      cases t with
      | tbool => exact bundle_tbool
      | tint => exact bundle_tint
      | tstr => exact bundle_tstr
      | tdec => exact bundle_tdec
      | tstruct fts => exact bundle_tstruct fts (ih.2 fts (by simp at ht; omega))
      | tmap vt => exact bundle_tmap vt (ih.1 vt (by simp at ht; omega))
    · intro ts ht
      cases ts with
      | nil => exact bundle_nil
      | cons t ts =>
        simp at ht
        exact bundle_cons t ts (ih.1 t (by omega)) (ih.2 ts (by omega))

/-- Every type of the universe satisfies the six merge properties. -/
theorem merge_BT (t : MTy) : BT t :=
  (master_aux (sizeOf t)).1 t (Nat.le_refl _)


/-! ## Corollaries of the master induction -/

/-- Merging any well-formed value into itself is a no-op reporting no change. -/
theorem merge_idem {x : MVal} (h : WT x = true) : merge (tyOf x) x x = (x, false) :=
  (merge_BT (tyOf x)).2.1 x h rfl

/-- Merge preserves well-formedness. -/
theorem merge_WT {a b : MVal} (hwa : WT a = true) (hwb : WT b = true)
    (ht : tyOf b = tyOf a) :
    WT (merge (tyOf a) a b).1 = true ∧ tyOf (merge (tyOf a) a b).1 = tyOf a :=
  (merge_BT (tyOf a)).1 a b hwa hwb rfl ht

/-- The changed flag is exact up to the nil/empty-map identification: it is
true exactly when the target value after the merge is observably different
from the target value before. -/
theorem merge_flag_iff {a b : MVal} (hwa : WT a = true) (hwb : WT b = true)
    (ht : tyOf b = tyOf a) :
    (merge (tyOf a) a b).2 = true ↔ eqv (merge (tyOf a) a b).1 a = false := by
  constructor
  · exact (merge_BT (tyOf a)).2.2.2.1 a b hwa hwb rfl ht
  · intro h
    cases hf : (merge (tyOf a) a b).2 with
    | true => rfl
    | false =>
      rw [(merge_BT (tyOf a)).2.2.1 a b hwa hwb rfl ht hf] at h
      exact Bool.noConfusion h

/-! ## The source order on strings is the lexicographic order -/

theorem gtStr_iff_lt : ∀ x y : List Nat, gtStr y x = true ↔ x < y := by
  intro x
  induction x with
  | nil =>
    intro y
    cases y with
    | nil =>
      constructor
      · intro h; exact absurd h (by simp [gtStr])
      · intro h; cases h
    | cons b bs =>
      constructor
      · intro _; exact List.Lex.nil
      · intro _; simp [gtStr]
  | cons a as ih =>
    intro y
    cases y with
    | nil =>
      constructor
      · intro h; exact absurd h (by simp [gtStr])
      · intro h; cases h
    | cons b bs =>
      rcases lt_trichotomy a b with hab | hab | hab
      · constructor
        · intro _; exact List.Lex.rel hab
        · intro _; simp [gtStr, hab, Nat.not_lt_of_lt hab]
      · subst hab
        constructor
        · intro h
          have h2 : gtStr bs as = true := by simpa [gtStr] using h
          exact List.Lex.cons ((ih bs).mp h2)
        · intro h
          cases h with
          | rel h2 => exact absurd h2 (lt_irrefl a)
          | cons h3 => simpa [gtStr] using (ih bs).mpr h3
      · constructor
        · intro h
          have : gtStr (b :: bs) (a :: as) = false := by
            simp [gtStr, hab, Nat.not_lt_of_lt hab]
          rw [this] at h
          exact Bool.noConfusion h
        · intro h
          cases h with
          | rel h2 => exact absurd h2 (Nat.not_lt_of_lt hab)
          | cons h3 => exact absurd hab (lt_irrefl _)


/-! ## The claims -/

/-- C1: the claim (and the package doc of crdt.go, lines 18-19) states that
Join(x, z) == x for every mergeable x, where z is the zero value of the
type of x.  The code refutes it: the zero value of the int type is 0, and
Join(-1, 0) evaluates to 0, not -1, because greater compares with the plain
numeric order and gives the zero value no special treatment.  This theorem
evaluates the code at the failing input. -/
theorem c1_zero_is_bottom_fails :
    zeroOf (tyOf (.vint (-1))) = .vint 0 ∧
    Join (.vint (-1)) (.vint 0) = .ok (.vint 0) ∧
    (MVal.vint 0 ≠ .vint (-1)) := by
  refine ⟨by simp [tyOf, zeroOf], ?_, by simp⟩
  simp [Join, join, tyOf, MTy.beq, zeroOf, greater]

/-- C2 counterexample: Merge into a nil map from a non-nil empty map of the
same type reports no change, yet the target value changes from the nil map
to a non-nil empty map, so the changed flag as literally claimed is not
exact. -/
theorem c2_changed_flag_counterexample :
    Merge (.ptr (.vmap .tint none)) (.vmap .tint (some [])) =
      .ok (.vmap .tint (some []), false) ∧
    (MVal.vmap .tint (some []) ≠ .vmap .tint none) := by
  constructor
  · simp [Merge, tyOf, MTy.beq]
  · simp

/-- C2 amended: for well-formed same-typed values, Merge(&a, b) succeeds and
its changed flag is true exactly when the post-call value of a differs
observably from its pre-call value, where a nil map and an empty non-nil
map (at any depth) count as equal: instantiating a nil target map is the
one mutation the engine does not report. -/
theorem c2_changed_flag_iff (a b : MVal) (hwa : WT a = true) (hwb : WT b = true)
    (ht : tyOf b = tyOf a) :
    Merge (.ptr a) b = .ok (merge (tyOf a) a b) ∧
    ((merge (tyOf a) a b).2 = true ↔ eqv (merge (tyOf a) a b).1 a = false) := by
  constructor
  · simp [Merge, ht, MTy.beq_refl]
  · exact merge_flag_iff hwa hwb ht

/-- C2 witness: the amended statement applied to the maps {1:0} and {1:1}. -/
theorem c2_changed_flag_iff_witness :
    Merge (.ptr (.vmap .tint (some [(1, .vint 0)]))) (.vmap .tint (some [(1, .vint 1)])) =
      .ok (merge (tyOf (.vmap .tint (some [(1, .vint 0)])))
        (.vmap .tint (some [(1, .vint 0)])) (.vmap .tint (some [(1, .vint 1)]))) ∧
    ((merge (tyOf (.vmap .tint (some [(1, .vint 0)])))
        (.vmap .tint (some [(1, .vint 0)])) (.vmap .tint (some [(1, .vint 1)]))).2 = true ↔
      eqv (merge (tyOf (.vmap .tint (some [(1, .vint 0)])))
        (.vmap .tint (some [(1, .vint 0)])) (.vmap .tint (some [(1, .vint 1)]))).1
        (.vmap .tint (some [(1, .vint 0)])) = false) :=
  c2_changed_flag_iff (.vmap .tint (some [(1, .vint 0)])) (.vmap .tint (some [(1, .vint 1)]))
    (by simp [WT, WTm, sortedKeys, keyLt, tyOf, MTy.beq])
    (by simp [WT, WTm, sortedKeys, keyLt, tyOf, MTy.beq])
    (by simp [tyOf])

/-- C3: the claim (and the package doc of crdt.go, lines 3-8, which presents
Join as a commutative merge) states Join(a, b) == Join(b, a) for all
same-typed values.  The code refutes it on maps holding negative values:
Join({1:-1}, {1:-2}) keeps -1 while Join({1:-2}, {1:-1}) keeps -2, because
the scratch value for a shared key starts at the entry zero value 0, both
negative values compare below it, and the second merge never reports a
change, so whichever value was copied in first wins.  This theorem
evaluates the code at the failing input. -/
theorem c3_join_commutativity_fails :
    Join (.vmap .tint (some [(1, .vint (-1))])) (.vmap .tint (some [(1, .vint (-2))])) =
      .ok (.vmap .tint (some [(1, .vint (-1))])) ∧
    Join (.vmap .tint (some [(1, .vint (-2))])) (.vmap .tint (some [(1, .vint (-1))])) =
      .ok (.vmap .tint (some [(1, .vint (-2))])) ∧
    (MVal.vmap .tint (some [(1, .vint (-1))]) ≠ .vmap .tint (some [(1, .vint (-2))])) := by
  refine ⟨?_, ?_, by simp⟩
  · simp [Join, join, tyOf, MTy.beq, zeroOf, greater, mergeEntries, lookupKey, setKey]
  · simp [Join, join, tyOf, MTy.beq, zeroOf, greater, mergeEntries, lookupKey, setKey]

/-- C4: on the totally ordered scalars the merge takes the strict maximum:
the target is set to the source exactly when the source is strictly greater
under the natural order of the type (false before true on bool, the numeric
order on int, the lexicographic order on byte strings, where the source
comparison gtStr coincides with the standard lexicographic order), and
merging equal scalars reports no change and keeps the target. -/
theorem c4_scalar_merge_strict_max :
    (∀ x y : Bool, merge .tbool (.vbool x) (.vbool y) = (.vbool (x || y), decide (x < y))) ∧
    (∀ x y : Int, merge .tint (.vint x) (.vint y) = (.vint (max x y), decide (x < y))) ∧
    (∀ x y : List Nat,
      merge .tstr (.vstr x) (.vstr y) = (.vstr (if x < y then y else x), decide (x < y))) ∧
    (∀ x y : List Nat, gtStr y x = true ↔ x < y) ∧
    (∀ x : Bool, merge .tbool (.vbool x) (.vbool x) = (.vbool x, false)) ∧
    (∀ x : Int, merge .tint (.vint x) (.vint x) = (.vint x, false)) ∧
    (∀ s : List Nat, merge .tstr (.vstr s) (.vstr s) = (.vstr s, false)) := by
  refine ⟨?_, ?_, ?_, gtStr_iff_lt, ?_, ?_, ?_⟩
  · intro x y
    cases x <;> cases y <;> simp [greater]
  · intro x y
    by_cases h : x < y
    · simp [greater, h, max_eq_right (le_of_lt h)]
    · simp [greater, h, max_eq_left (not_lt.mp h)]
  · intro x y
    by_cases h : x < y
    · have hg : gtStr y x = true := (gtStr_iff_lt x y).mpr h
      simp [greater, hg, h]
    · have hg : gtStr y x = false := by
        cases hc : gtStr y x with
        | false => rfl
        | true => exact absurd ((gtStr_iff_lt x y).mp hc) h
      simp [greater, hg, h]
  · intro x
    cases x <;> simp [greater]
  · intro x
    simp [greater]
  · intro s
    simp [greater, gtStr_irrefl]

/-- C5: the claim states that merging maps over a shared key leaves the
entry equal to the join of the old and incoming values, replacing the entry
and reporting a change only when the scratch computation does.  The scratch
mechanics and the concrete example of the spec hold ({1:0} merged with
{1:1} gives {1:1} with a change, and re-merging gives no change), but the
entry is not always the join of the two values: with old entry -1 and
incoming 0 the scratch (started from the zero value 0) reports no change,
the entry stays -1, yet Join(-1, 0) is 0.  This theorem evaluates the code
at the spec example and at the failing input. -/
theorem c5_mapping_shared_key :
    Merge (.ptr (.vmap .tint (some [(1, .vint 0)]))) (.vmap .tint (some [(1, .vint 1)])) =
      .ok (.vmap .tint (some [(1, .vint 1)]), true) ∧
    Merge (.ptr (.vmap .tint (some [(1, .vint 1)]))) (.vmap .tint (some [(1, .vint 1)])) =
      .ok (.vmap .tint (some [(1, .vint 1)]), false) ∧
    Merge (.ptr (.vmap .tint (some [(1, .vint (-1))]))) (.vmap .tint (some [(1, .vint 0)])) =
      .ok (.vmap .tint (some [(1, .vint (-1))]), false) ∧
    Join (.vint (-1)) (.vint 0) = .ok (.vint 0) ∧
    (MVal.vint 0 ≠ .vint (-1)) := by
  refine ⟨?_, ?_, ?_, ?_, by simp⟩
  · simp [Merge, tyOf, MTy.beq, zeroOf, greater, mergeEntries, lookupKey, setKey]
  · simp [Merge, tyOf, MTy.beq, zeroOf, greater, mergeEntries, lookupKey, setKey]
  · simp [Merge, tyOf, MTy.beq, zeroOf, greater, mergeEntries, lookupKey, setKey]
  · simp [Join, join, tyOf, MTy.beq, zeroOf, greater]

/-- C6: a type with the custom Merger capability is merged exclusively by
its own Merge method: for the decreasingInt type of crdt_test.go the engine
returns exactly what decreasingIntMerge returns, keeping the minimum, so
Merge(&3, 5) keeps 3 with no change and Merge(&3, 1) takes 1 with a change,
while the scalar (greater-wins) logic on plain int values would instead
take 5 from Merge(&3, 5). -/
theorem c6_custom_merger_priority :
    (∀ x y : Int, Merge (.ptr (.vdec x)) (.vdec y) = .ok (decreasingIntMerge x y)) ∧
    Merge (.ptr (.vdec 3)) (.vdec 5) = .ok (.vdec 3, false) ∧
    Merge (.ptr (.vdec 3)) (.vdec 1) = .ok (.vdec 1, true) ∧
    Merge (.ptr (.vint 3)) (.vint 5) = .ok (.vint 5, true) := by
  refine ⟨?_, ?_, ?_, ?_⟩
  · intro x y
    simp [Merge, tyOf, MTy.beq]
  · simp [Merge, tyOf, MTy.beq, decreasingIntMerge]
  · simp [Merge, tyOf, MTy.beq, decreasingIntMerge]
  · simp [Merge, tyOf, MTy.beq, greater]

/-- C7: idempotence: merging any well-formed value into an equal target
succeeds, reports no change and leaves the target unchanged, whatever the
strategy (custom Merger, struct, map, ordered scalar). -/
theorem c7_merge_idempotent (x : MVal) (hw : WT x = true) :
    Merge (.ptr x) x = .ok (x, false) := by
  simp [Merge, MTy.beq_refl]
  exact merge_idem hw

/-- C7 witness: idempotence at a struct holding an int, a string, a map, a
bool and a decreasingInt. -/
theorem c7_merge_idempotent_witness :
    Merge (.ptr (.vstruct [.vint 3, .vstr [97], .vmap .tint (some [(1, .vint 2)]),
        .vbool true, .vdec (-1)]))
      (.vstruct [.vint 3, .vstr [97], .vmap .tint (some [(1, .vint 2)]),
        .vbool true, .vdec (-1)]) =
      .ok ((.vstruct [.vint 3, .vstr [97], .vmap .tint (some [(1, .vint 2)]),
        .vbool true, .vdec (-1)]), false) :=
  c7_merge_idempotent _
    (by simp [WT, WTs, WTm, sortedKeys, keyLt, tyOf, MTy.beq])

/-- C8: precondition violations are fatal and never coerce: Merge panics
when its first argument is not a pointer, and both Merge and Join panic on
a type mismatch, performing no merge. -/
theorem c8_precondition_panics :
    (∀ v b : MVal, Merge (.val v) b = .error "a must be a pointer") ∧
    (∀ a b : MVal, tyOf a ≠ tyOf b →
      Merge (.ptr a) b = .error "a and &b must be the same type") ∧
    (∀ a b : MVal, tyOf a ≠ tyOf b →
      Join a b = .error "a and b must be the same type") := by
  refine ⟨fun v b => rfl, ?_, ?_⟩
  · intro a b hne
    have hbeq : MTy.beq (tyOf a) (tyOf b) = false := by
      cases hb : MTy.beq (tyOf a) (tyOf b) with
      | true => exact absurd (MTy.beq_sound hb) hne
      | false => rfl
    simp [Merge, hbeq]
  · intro a b hne
    have hbeq : MTy.beq (tyOf a) (tyOf b) = false := by
      cases hb : MTy.beq (tyOf a) (tyOf b) with
      | true => exact absurd (MTy.beq_sound hb) hne
      | false => rfl
    simp [Join, hbeq]

/-- C8 witness: the panics observed at concrete inputs of distinct types. -/
theorem c8_precondition_panics_witness :
    Merge (.val (.vint 0)) (.vint 1) = .error "a must be a pointer" ∧
    Merge (.ptr (.vint 0)) (.vbool true) = .error "a and &b must be the same type" ∧
    Join (.vint 0) (.vbool true) = .error "a and b must be the same type" :=
  ⟨c8_precondition_panics.1 (.vint 0) (.vint 1),
    c8_precondition_panics.2.1 (.vint 0) (.vbool true) (by simp [tyOf]),
    c8_precondition_panics.2.2 (.vint 0) (.vbool true) (by simp [tyOf])⟩

/-- C9: Join is computed by merging a and then b into a fresh zero value of
the shared type and returns that value; in this value-level model merge
returns a new value and never writes through its second argument, so the
inputs of Join are left unchanged by construction, matching the Go code,
which writes only through the first argument of merge. -/
theorem c9_join_pure (a b : MVal) (ht : tyOf b = tyOf a) :
    Join a b = .ok (join a b) ∧
    join a b = (merge (tyOf a) (merge (tyOf a) (zeroOf (tyOf a)) a).1 b).1 := by
  constructor
  · simp [Join, ht, MTy.beq_refl]
  · rfl

/-- C9 witness: Join of two ints is the merge of both into a fresh zero. -/
theorem c9_join_pure_witness :
    Join (.vint 1) (.vint 2) = .ok (join (.vint 1) (.vint 2)) ∧
    join (.vint 1) (.vint 2) =
      (merge (tyOf (.vint 1)) (merge (tyOf (.vint 1)) (zeroOf (tyOf (.vint 1))) (.vint 1)).1
        (.vint 2)).1 :=
  c9_join_pure (.vint 1) (.vint 2) (by simp [tyOf])

/-- C10: merging a non-nil empty map into a nil map of the same type
instantiates the target as a fresh empty non-nil map, yet Merge returns
false: the nil-to-empty transition is not reported as a change. -/
theorem c10_nil_map_instantiation :
    Merge (.ptr (.vmap .tint none)) (.vmap .tint (some [])) =
      .ok (.vmap .tint (some []), false) ∧
    (MVal.vmap .tint (some []) ≠ .vmap .tint none) := by
  constructor
  · simp [Merge, tyOf, MTy.beq]
  · simp

end Crdt
